import Mathlib

/-!
Verification development for the `1_mockup_map.py` dashboard
(BC_Parcel_Ranch_Map repository).

Strings from the Python source are embedded as `List Char`; Python's
substring test (`in`) and `str.replace` are embedded as executable
boolean / list functions below.  Pandas/GeoPandas table values are
embedded as `Option String` (a `none` is a null cell), GeoJSON feature
properties as options (a missing key is `none`, a present null is
`some none`), and numeric cells as `Option ℚ` (a `none` is a NaN).
-/

/-- Boolean test that `p` is a leading segment of `s`
(Python `s.startswith(p)`). -/
def isPre : List Char → List Char → Bool
  | [], _ => true
  | _ :: _, [] => false
  | a :: p, b :: s => a == b && isPre p s

/-- Boolean test that `p` is a trailing segment of `s`. -/
def isSuf (p : List Char) : List Char → Bool
  | [] => p == []
  | b :: s => p == b :: s || isSuf p s

/-- Boolean substring test: Python's `p in s` for strings. -/
def isSub (p : List Char) : List Char → Bool
  | [] => p == []
  | b :: s => isPre p (b :: s) || isSub p s

/-- Fuel-indexed scanner behind `replaceAll`: one unit of fuel is spent
per character position, so `replaceAllGo p r s.length s` processes all
of `s`.  On a match the whole pattern is consumed (occurrences do not
overlap), exactly as Python's `str.replace` scans. -/
def replaceAllGo (p r : List Char) : ℕ → List Char → List Char
  | 0, s => s
  | _ + 1, [] => []
  | n + 1, c :: t =>
    if p ≠ [] ∧ isPre p (c :: t) = true then
      r ++ replaceAllGo p r n ((c :: t).drop p.length)
    else
      c :: replaceAllGo p r n t

/-- Python `s.replace(p, r)` for a non-empty pattern `p`: scan left to
right, replacing non-overlapping occurrences of `p` by `r`.  (The
source only ever calls `str.replace` with non-empty literal patterns;
for `p = []` this embedding returns `s` unchanged.) -/
def replaceAll (p r : List Char) (s : List Char) : List Char :=
  replaceAllGo p r s.length s

/-- A value held in a pandas cell, as seen by Python's `isinstance`
test: either a string or some non-string value (`other`). -/
inductive PyVal (α : Type) : Type where
  | str (s : List Char) : PyVal α
  | other (a : α) : PyVal α
deriving DecidableEq

/-- The literal pattern `src="files/` from line 42/49 of the source. -/
def filesPat : List Char :=
  ['s', 'r', 'c', '=', '"', 'f', 'i', 'l', 'e', 's', '/']

/-- The replacement `src="` + `BASE_IMG_URL` from lines 47-49. -/
def filesRepl : List Char :=
  ['s', 'r', 'c', '=', '"', 'h', 't', 't', 'p', 's', ':', '/', '/', 'r',
   'a', 'w', '.', 'g', 'i', 't', 'h', 'u', 'b', 'u', 's', 'e', 'r', 'c',
   'o', 'n', 't', 'e', 'n', 't', '.', 'c', 'o', 'm', '/', 'c', 'a', 'e',
   's', 'a', 'r', 'w', '0', '/', 'B', 'C', '_', 'P', 'a', 'r', 'c', 'e',
   'l', '_', 'R', 'a', 'n', 'c', 'h', '_', 'M', 'a', 'p', '/', 'm', 'a',
   'i', 'n', '/', 'i', 'm', 'g', '/']

/-- The literal pattern `<img ` from line 52 of the source. -/
def imgPat : List Char := ['<', 'i', 'm', 'g', ' ']

/-- The replacement `<img style="width:100%; height:auto;" ` from
line 52 of the source. -/
def imgRepl : List Char :=
  ['<', 'i', 'm', 'g', ' ', 's', 't', 'y', 'l', 'e', '=', '"', 'w', 'i',
   'd', 't', 'h', ':', '1', '0', '0', '%', ';', ' ', 'h', 'e', 'i', 'g',
   'h', 't', ':', 'a', 'u', 't', 'o', ';', '"', ' ']

/-- Lines 41-54 of the source: return non-strings and strings without
the `src="files/` marker unchanged; otherwise rewrite image sources to
the raw-GitHub base URL and then force inline image sizing. -/
def fix_image_paths_to_static {α : Type} (description : PyVal α) : PyVal α :=
  match description with
  | .other a => .other a
  | .str s =>
    if isSub filesPat s then
      .str (replaceAll imgPat imgRepl (replaceAll filesPat filesRepl s))
    else
      .str s

/-- Accumulator form of pandas `Series.unique`: keep a value when it
has not been seen yet. -/
def pdUniqueGo (seen : List String) : List String → List String
  | [] => []
  | a :: l =>
    if seen.contains a then pdUniqueGo seen l
    else a :: pdUniqueGo (a :: seen) l

/-- Pandas `Series.unique` on strings: deduplicate, keeping the first
occurrence of each value (line 118 of the source applies it to the
`Four Hearts Package` column). -/
def pdUnique (l : List String) : List String :=
  pdUniqueGo [] l

/-- Line 77 of the source: `fillna("N/A").astype(str)` on the
`Four Hearts Package` column; a null cell becomes the string `N/A`. -/
def fillna_packages (cats : List (Option String)) : List String :=
  cats.map (fun c => c.getD "N/A")

/-- Python's lexicographic comparison of strings (`a <= b`), on the
underlying code-point sequences. -/
def listLe : List Char → List Char → Bool
  | [], _ => true
  | _ :: _, [] => false
  | a :: s, b :: t => if a = b then listLe s t else decide (a.toNat < b.toNat)

/-- Python's `a <= b` on strings: case-sensitive code-point order. -/
def strLe (a b : String) : Bool :=
  listLe a.data b.data

/-- Line 118 of the source: `sorted(parcels_gdf['Four Hearts Package'].unique())`
(ascending, case-sensitive code-point order, as in Python). -/
def sorted_unique_packages (cats : List (Option String)) : List String :=
  List.insertionSort (fun a b => strLe a b = true) (pdUnique (fillna_packages cats))

/-- Line 120 of the source: the fixed color palette. -/
def colors : List String :=
  ["#e41a1c", "#377eb8", "#4daf4a", "#984ea3", "#ff7f00", "#ffff33", "#a65628"]

/-- The dict comprehension of line 121: pair the `i`-th value (counting
from `start`) with `palette[i % len(palette)]`. -/
def assignColors (palette : List String) (start : ℕ) : List String → List (String × String)
  | [] => []
  | v :: vs => (v, palette.getD (start % palette.length) "") :: assignColors palette (start + 1) vs

/-- The Category Color Table built from a raw category column and a
palette: normalize nulls, deduplicate, sort, then assign palette colors
cyclically (lines 77, 118, 121 of the source). -/
def color_table (palette : List String) (cats : List (Option String)) : List (String × String) :=
  assignColors palette 0 (sorted_unique_packages cats)

/-- Line 121 of the source: `package_color_map`, the color table for the
`Four Hearts Package` column with the fixed palette `colors`. -/
def package_color_map (cats : List (Option String)) : List (String × String) :=
  color_table colors cats

/-- A folium style dictionary, as returned by `style_func`
(line 171 of the source). -/
structure StyleDescriptor where
  fillColor : String
  color : String
  weight : ℚ
  fillOpacity : ℚ
deriving DecidableEq

/-- A GeoJSON feature as seen by `style_func` and `create_map`:
`pkg` is `feature['properties']` at key `Four Hearts Package`
(`none` = key absent, `some none` = null value), `license` the boolean
`License` attribute used for layer routing, and `id` the `Parcel_ID`
identifier (absent for some records). -/
structure Feature where
  pkg : Option (Option String)
  license : Bool
  id : Option String
deriving DecidableEq

/-- Python `dict.get(key, default)` on a string-keyed dict: a `None`
key matches no string key and yields the default. -/
def dictGetStr (table : List (String × String)) (key : Option String) (dflt : String) : String :=
  match key with
  | none => dflt
  | some k => (table.lookup k).getD dflt

/-- Lines 168-171 of the source: fill color from `package_color_map`
with default `#808080`, white border of weight 0.5, fill opacity 0.4.
Total by construction: every feature gets a style, no exception. -/
def style_func (table : List (String × String)) (f : Feature) : StyleDescriptor :=
  let pkg : Option String :=
    match f.pkg with
    | none => some "N/A"
    | some v => v
  { fillColor := dictGetStr table pkg "#808080"
    color := "white"
    weight := 1 / 2
    fillOpacity := 2 / 5 }

/-- Lines 207 and 227 of the source: `create_map` routes features by the
`License` flag into the unlicensed package groups and the licensed
group, styling both with the same `style_func`. -/
def layerStyles (table : List (String × String)) (fs : List Feature) :
    List StyleDescriptor × List StyleDescriptor :=
  ((fs.filter (fun f => f.license == false)).map (style_func table),
   (fs.filter (fun f => f.license == true)).map (style_func table))

/-- Modelled from the spec: the fixed highlight fill color of the
Style Resolver's selection override (section 4.2).  The selection
override is implemented in later iterations of the repository's
dashboard files, which are not part of the provided source. -/
def highlight_color : String := "#00FFFF"

/-- Modelled from the spec: the darkened border color used by the
selection override (the non-selected border is `white`). -/
def selected_border_color : String := "#3F3F3F"

/-- Modelled from the spec: the Style Resolver (section 4.2).  The base
style is the source's `style_func`; when the Selection State holds a
non-empty id equal to the feature's identifier, the override sets the
fixed highlight fill, darkens the border, and raises border weight and
fill opacity.  The selection-aware resolver itself is code of later
repository iterations not present in the provided source file. -/
def resolveStyle (table : List (String × String)) (selected : Option String)
    (f : Feature) : StyleDescriptor :=
  let base := style_func table f
  match selected with
  | none => base
  | some s =>
    if s ≠ "" ∧ f.id = some s then
      { fillColor := highlight_color
        color := selected_border_color
        weight := base.weight + 2
        fillOpacity := base.fillOpacity + 3 / 10 }
    else base

/-- Modelled from the spec: the Sync Controller transition
`onMapFeatureActivated` (sections 4.3 and 6).  Input: the clicked
identifier (or null) and the current Selection State; output: whether
the state changed, and the new state.  A null or unchanged identifier
reports no change; a new identifier is stored and reported as a
change.  This controller is code of later repository iterations not
present in the provided source file. -/
def onMapFeatureActivated (incoming : Option String) (sel : Option String) :
    Bool × Option String :=
  match incoming with
  | none => (false, sel)
  | some x => if sel = some x then (false, sel) else (true, some x)

/-- Result of one dataset loader: the geospatial read either yields
data or raises, which the source's loaders catch (or not). -/
inductive LoadResult (α : Type) : Type where
  | ok (a : α) : LoadResult α
  | err (msg : String) : LoadResult α
deriving DecidableEq

/-- Lines 81-88 of the source (`load_point_data`): a raised load error
is caught, reported with `st.error`, and `None` is returned. -/
def load_point_data {α : Type} (r : LoadResult α) : Option α :=
  match r with
  | .ok a => some a
  | .err _ => none

/-- Lines 90-97 of the source (`load_package_data`): same
catch-and-return-None shape as `load_point_data`. -/
def load_package_data {α : Type} (r : LoadResult α) : Option α :=
  match r with
  | .ok a => some a
  | .err _ => none

/-- Lines 99-106 of the source (`load_ranch_data`): same
catch-and-return-None shape as `load_point_data`. -/
def load_ranch_data {α : Type} (r : LoadResult α) : Option α :=
  match r with
  | .ok a => some a
  | .err _ => none

/-- What the session ends up doing after the module-level load block. -/
inductive StartupOutcome (ρ π : Type) : Type where
  | stopped : StartupOutcome ρ π
  | crashed : StartupOutcome ρ π
  | rendered (parcels : ρ) (points : π) : StartupOutcome ρ π
deriving DecidableEq

/-- Lines 108-115 and 269-276 of the source, as one step function.
`load_parcel_data` has no internal handler, so a parcel load error
escapes to the `try` of line 108 and the app stops (`st.stop`, no
map).  The other three loaders swallow their errors and return `None`.
`create_map(parcels_gdf, points_gdf)` iterates `points_gdf` (line
179), so a `None` points value crashes map creation with an uncaught
exception; the package and ranch values are never read, so the map is
rendered from parcels and points alone whatever their load results. -/
def appStartup {ρ π κ τ : Type} (parcels : LoadResult ρ) (points : LoadResult π)
    (packages : LoadResult κ) (ranch : LoadResult τ) : StartupOutcome ρ π :=
  match parcels with
  | .err _ => .stopped
  | .ok p =>
    let _pk := load_package_data packages
    let _ra := load_ranch_data ranch
    match load_point_data points with
    | none => .crashed
    | some q => .rendered p q

/-- The lower-cased substring `lake` from line 185 of the source. -/
def lakePat : List Char := ['l', 'a', 'k', 'e']

/-- The lower-cased substring `house` from lines 185-186 of the source. -/
def housePat : List Char := ['h', 'o', 'u', 's', 'e']

/-- The lower-cased substring `estate` from line 186 of the source. -/
def estatePat : List Char := ['e', 's', 't', 'a', 't', 'e']

/-- Lines 184-186 of the source: the point-marker background color,
from the point's `Name` lower-cased (ASCII lower-casing, as all names
in the dataset are ASCII). -/
def pointBg (name : List Char) : String :=
  let nl := name.map Char.toLower
  if isSub lakePat nl && !isSub housePat nl then "#325F82"
  else if isSub housePat nl || isSub estatePat nl then "#8C985F"
  else "#F5D798"

/-- Lines 64-66 of the source: the price column names. -/
def price_cols : List String :=
  ["Assesed Value Land", "Assesed Value Improve", "Assesed Value TOTAL",
   "BD List Value", "Estimated property transfer tax ()",
   "Estimated PTT (cultivated farmland)", "Estimated PTT (rangeland)"]

/-- Line 70 of the source: `str.replace(r'[$,]', '', regex=True)` —
drop every `$` and `,` character. -/
def stripDollarComma (s : List Char) : List Char :=
  s.filter (fun c => !(c == '$' || c == ','))

/-- Digit run to a natural number; `none` when empty or non-digit. -/
def digitsToNat (s : List Char) : Option ℕ :=
  if s ≠ [] ∧ s.all Char.isDigit then
    some (s.foldl (fun n c => 10 * n + (c.toNat - 48)) 0)
  else none

/-- Value of a digit run, defaulting the empty run to 0 (so that
`".5"` and `"5."` both parse, as `pd.to_numeric` accepts them). -/
def digitsVal (s : List Char) : ℕ :=
  s.foldl (fun n c => 10 * n + (c.toNat - 48)) 0

/-- An unsigned decimal numeral: digits with at most one point and at
least one digit overall. -/
def parseUnsigned (s : List Char) : Option ℚ :=
  match s.splitOn '.' with
  | [w] => (digitsToNat w).map (fun n => (n : ℚ))
  | [w, f] =>
    if (w ≠ [] ∨ f ≠ []) ∧ w.all Char.isDigit ∧ f.all Char.isDigit then
      some ((digitsVal w : ℚ) + (digitsVal f : ℚ) / (10 : ℚ) ^ f.length)
    else none
  | _ => none

/-- `pd.to_numeric(..., errors='coerce')` on one cell (already a
string after `astype(str)`): an optional sign followed by a decimal
numeral, and `none` (pandas `NaN`) for anything unparsable — never an
exception. -/
def to_numeric_coerce (s : List Char) : Option ℚ :=
  match s with
  | '-' :: t => (parseUnsigned t).map (fun q => -q)
  | '+' :: t => parseUnsigned t
  | _ => parseUnsigned s

/-- Pandas `.round(2)` on an exact value: round to two decimal places.
(Pandas rounds binary floats half-to-even; on this exact model the
nearest-value rounding is `round`, ties being immaterial to the
claims.) -/
def round2 (q : ℚ) : ℚ :=
  (round (q * 100) : ℤ) / 100

/-- Line 70 of the source applied to one cell: strip `$` and `,`,
coerce to a number or NaN, round to two decimals. -/
def normalizePriceCell (s : List Char) : Option ℚ :=
  (to_numeric_coerce (stripDollarComma s)).map round2

/-- A dataframe column after the price loop: either untouched raw
cells or the numeric result of the normalization. -/
inductive ColData : Type where
  | raw (cells : List (List Char)) : ColData
  | nums (cells : List (Option ℚ)) : ColData
deriving DecidableEq

/-- Lines 68-70 of the source: for each price column present in the
dataframe, replace it by its normalized values; every other column —
and in particular every price column absent from the dataframe — is
left untouched. -/
def normalize_price_columns (df : List (String × List (List Char))) :
    List (String × ColData) :=
  df.map (fun col =>
    if price_cols.contains col.1 then (col.1, .nums (col.2.map normalizePriceCell))
    else (col.1, .raw col.2))

theorem char_toNat_ne_of_ne {a b : Char} (h : a ≠ b) : a.toNat ≠ b.toNat := by
  intro he
  apply h
  have := congrArg Char.ofNat he
  rwa [Char.ofNat_toNat, Char.ofNat_toNat] at this

theorem listLe_total : ∀ s t : List Char, listLe s t = true ∨ listLe t s = true := by
  intro s
  induction s with
  | nil => intro t; left; rfl
  | cons a s ih =>
    intro t
    cases t with
    | nil => right; rfl
    | cons b t =>
      by_cases hab : a = b
      · subst hab
        simp only [listLe, if_pos rfl]
        exact ih t
      · have hne := char_toNat_ne_of_ne hab
        simp only [listLe, if_neg hab, if_neg (Ne.symm hab), decide_eq_true_eq]
        omega

theorem listLe_antisymm : ∀ s t : List Char, listLe s t = true → listLe t s = true → s = t := by
  intro s
  induction s with
  | nil =>
    intro t h1 h2
    cases t with
    | nil => rfl
    | cons b t => simp [listLe] at h2
  | cons a s ih =>
    intro t h1 h2
    cases t with
    | nil => simp [listLe] at h1
    | cons b t =>
      by_cases hab : a = b
      · subst hab
        simp only [listLe, if_pos rfl] at h1 h2
        rw [ih t h1 h2]
      · exfalso
        simp only [listLe, if_neg hab, if_neg (Ne.symm hab), decide_eq_true_eq] at h1 h2
        omega

theorem listLe_trans :
    ∀ s t u : List Char, listLe s t = true → listLe t u = true → listLe s u = true := by
  intro s
  induction s with
  | nil => intro t u _ _; rfl
  | cons a s ih =>
    intro t u h1 h2
    cases t with
    | nil => simp [listLe] at h1
    | cons b t =>
      cases u with
      | nil => simp [listLe] at h2
      | cons c u =>
        by_cases hab : a = b <;> by_cases hbc : b = c
        · subst hab; subst hbc
          simp only [listLe, if_pos rfl] at h1 h2 ⊢
          exact ih t u h1 h2
        · subst hab
          simp only [listLe, if_neg hbc] at h2 ⊢
          exact h2
        · subst hbc
          simp only [listLe, if_neg hab] at h1 ⊢
          exact h1
        · simp only [listLe, if_neg hab, if_neg hbc, decide_eq_true_eq] at h1 h2
          have hac : a.toNat < c.toNat := by omega
          have hne : a ≠ c := fun he => by
            rw [he] at h1
            omega
          simp only [listLe, if_neg hne, decide_eq_true_eq]
          exact hac

instance : IsTotal String (fun a b => strLe a b = true) :=
  ⟨fun a b => listLe_total a.data b.data⟩

instance : IsTrans String (fun a b => strLe a b = true) :=
  ⟨fun a b c => listLe_trans a.data b.data c.data⟩

instance : IsAntisymm String (fun a b => strLe a b = true) :=
  ⟨fun a b h1 h2 => String.ext (listLe_antisymm a.data b.data h1 h2)⟩

theorem mem_pdUniqueGo :
    ∀ (l seen : List String) (x : String), x ∈ pdUniqueGo seen l ↔ x ∈ l ∧ x ∉ seen := by
  intro l
  induction l with
  | nil => intro seen x; simp [pdUniqueGo]
  | cons a l ih =>
    intro seen x
    by_cases h : a ∈ seen
    · rw [pdUniqueGo, if_pos (List.elem_iff.mpr h), ih]
      simp only [List.mem_cons]
      constructor
      · rintro ⟨hx, hs⟩
        exact ⟨Or.inr hx, hs⟩
      · rintro ⟨hx | hx, hs⟩
        · exact absurd (hx ▸ h) hs
        · exact ⟨hx, hs⟩
    · rw [pdUniqueGo, if_neg (fun hc => h (List.elem_iff.mp hc))]
      simp only [List.mem_cons, ih]
      constructor
      · rintro (rfl | ⟨hx, hs⟩)
        · exact ⟨Or.inl rfl, h⟩
        · exact ⟨Or.inr hx, fun hm => hs (Or.inr hm)⟩
      · rintro ⟨hx | hx, hs⟩
        · exact Or.inl hx
        · by_cases hxa : x = a
          · exact Or.inl hxa
          · refine Or.inr ⟨hx, fun hm => ?_⟩
            rcases hm with h1 | h1
            · exact hxa h1
            · exact hs h1

theorem nodup_pdUniqueGo : ∀ (l seen : List String), (pdUniqueGo seen l).Nodup := by
  intro l
  induction l with
  | nil => intro seen; simp [pdUniqueGo]
  | cons a l ih =>
    intro seen
    by_cases h : a ∈ seen
    · rw [pdUniqueGo, if_pos (List.elem_iff.mpr h)]
      exact ih seen
    · rw [pdUniqueGo, if_neg (fun hc => h (List.elem_iff.mp hc))]
      refine List.nodup_cons.mpr ⟨fun hmem => ?_, ih (a :: seen)⟩
      rw [mem_pdUniqueGo] at hmem
      exact hmem.2 (List.mem_cons_self a seen)

theorem mem_pdUnique {l : List String} {x : String} : x ∈ pdUnique l ↔ x ∈ l := by
  rw [pdUnique, mem_pdUniqueGo]
  simp

theorem nodup_pdUnique (l : List String) : (pdUnique l).Nodup :=
  nodup_pdUniqueGo l []

theorem pdUnique_perm {l1 l2 : List String} (h : l1.Perm l2) :
    (pdUnique l1).Perm (pdUnique l2) :=
  (List.perm_ext_iff_of_nodup (nodup_pdUnique l1) (nodup_pdUnique l2)).mpr
    (fun x => by rw [mem_pdUnique, mem_pdUnique, h.mem_iff])

theorem lookup_assignColors (palette : List String) :
    ∀ (l : List String) (start i : ℕ) (h : i < l.length), l.Nodup →
      List.lookup (l.get ⟨i, h⟩) (assignColors palette start l) =
        some (palette.getD ((start + i) % palette.length) "") := by
  intro l
  induction l with
  | nil =>
    intro start i h _
    exact absurd h (by simp)
  | cons a l ih =>
    intro start i h hnd
    cases i with
    | zero =>
      simp [assignColors, List.lookup]
    | succ i =>
      have hlt : i < l.length := by
        simpa using h
      have ha : a ∉ l := (List.nodup_cons.mp hnd).1
      have hkey : (l.get ⟨i, hlt⟩ == a) = false := by
        rw [beq_eq_false_iff_ne]
        intro he
        exact ha (he ▸ List.get_mem l i hlt)
      have hstep : (a :: l).get ⟨i + 1, h⟩ = l.get ⟨i, hlt⟩ := rfl
      rw [hstep, assignColors, List.lookup_cons, hkey]
      show List.lookup (l.get ⟨i, hlt⟩) (assignColors palette (start + 1) l) = _
      rw [ih (start + 1) i hlt (List.nodup_cons.mp hnd).2]
      have harith : start + 1 + i = start + (i + 1) := by omega
      rw [harith]

theorem nodup_sorted_unique_packages (cats : List (Option String)) :
    (sorted_unique_packages cats).Nodup :=
  (List.Perm.nodup_iff (List.perm_insertionSort _ _)).mpr
    (nodup_pdUnique (fillna_packages cats))

theorem sorted_unique_packages_perm_eq {c1 c2 : List (Option String)}
    (h : c1.Perm c2) : sorted_unique_packages c1 = sorted_unique_packages c2 := by
  have hp : (sorted_unique_packages c1).Perm (sorted_unique_packages c2) :=
    (List.perm_insertionSort _ _).trans
      ((pdUnique_perm (h.map _)).trans (List.perm_insertionSort _ _).symm)
  exact List.eq_of_perm_of_sorted hp
    (List.sorted_insertionSort (fun a b => strLe a b = true) (pdUnique (fillna_packages c1)))
    (List.sorted_insertionSort (fun a b => strLe a b = true) (pdUnique (fillna_packages c2)))

/-- C1: the Category Color Table normalizes null categories to `N/A`,
deduplicates, sorts ascending case-sensitively, and gives the `i`-th
sorted value the color `palette[i % palette.length]`; on categories
`["B","A","A",null]` with palette `["#111","#222"]` it yields
`{A:"#111", B:"#222", "N/A":"#111"}`. -/
theorem color_table_spec :
    (∀ (palette : List String) (cats : List (Option String)) (i : ℕ)
        (h : i < (sorted_unique_packages cats).length),
      List.lookup ((sorted_unique_packages cats).get ⟨i, h⟩) (color_table palette cats) =
        some (palette.getD (i % palette.length) "")) ∧
    color_table ["#111", "#222"] [some "B", some "A", some "A", none] =
      [("A", "#111"), ("B", "#222"), ("N/A", "#111")] := by
  constructor
  · intro palette cats i h
    have := lookup_assignColors palette (sorted_unique_packages cats) 0 i h
      (nodup_sorted_unique_packages cats)
    simpa using this
  · decide

/-- Witness for `color_table_spec`: the second sorted category of
`["B","A",null]` is `B`, and its assigned color with a two-color
palette is `palette[1 % 2] = "#222"`. -/
theorem color_table_spec_witness :
    List.lookup ((sorted_unique_packages [some "B", some "A", none]).get ⟨1, by decide⟩)
        (color_table ["#111", "#222"] [some "B", some "A", none]) =
      some ((["#111", "#222"] : List String).getD (1 % 2) "") :=
  color_table_spec.1 ["#111", "#222"] [some "B", some "A", none] 1 (by decide)

/-- C6: the Category Color Assigner is a pure function of the observed
value multiset: any two traversal orders of the same categories give
the identical table (purity across runs is intrinsic: the assigner is
a function of the column). -/
theorem color_table_perm_invariant (palette : List String)
    (cats1 cats2 : List (Option String)) (h : cats1.Perm cats2) :
    color_table palette cats1 = color_table palette cats2 ∧
    package_color_map cats1 = package_color_map cats2 := by
  have he := sorted_unique_packages_perm_eq h
  constructor
  · rw [color_table, color_table, he]
  · rw [package_color_map, package_color_map, color_table, color_table, he]

/-- Witness for `color_table_perm_invariant`: two traversal orders of
the same three categories give the same table. -/
theorem color_table_perm_invariant_witness :
    package_color_map [some "B", none, some "A"] =
      package_color_map [some "A", some "B", none] :=
  (color_table_perm_invariant colors [some "B", none, some "A"]
    [some "A", some "B", none] (by decide)).2

/-- C2: when the Selection State holds the non-empty id of the feature,
the (spec-modelled) Style Resolver overrides the fill to the fixed
highlight color, raises the border weight and the opacity above the
feature's non-selected style, and darkens the border; a feature with a
different identifier gets exactly its non-selected style. -/
theorem resolveStyle_selection_override (table : List (String × String))
    (s : String) (f : Feature) (hs : s ≠ "") :
    (f.id = some s →
      (resolveStyle table (some s) f).fillColor = highlight_color ∧
      (resolveStyle table (some s) f).weight > (style_func table f).weight ∧
      (resolveStyle table (some s) f).fillOpacity > (style_func table f).fillOpacity ∧
      (resolveStyle table (some s) f).color = selected_border_color ∧
      (resolveStyle table (some s) f).color ≠ (style_func table f).color) ∧
    (f.id ≠ some s → resolveStyle table (some s) f = style_func table f) := by
  constructor
  · intro hid
    have hcond : s ≠ "" ∧ f.id = some s := ⟨hs, hid⟩
    have hres : resolveStyle table (some s) f =
        { fillColor := highlight_color
          color := selected_border_color
          weight := (style_func table f).weight + 2
          fillOpacity := (style_func table f).fillOpacity + 3 / 10 } := by
      simp only [resolveStyle, if_pos hcond]
    have hwhite : (style_func table f).color = "white" := rfl
    rw [hres]
    refine ⟨rfl, ?_, ?_, rfl, ?_⟩
    · show (style_func table f).weight + 2 > (style_func table f).weight
      linarith
    · show (style_func table f).fillOpacity + 3 / 10 > (style_func table f).fillOpacity
      linarith
    · rw [hwhite]
      show selected_border_color ≠ "white"
      decide
  · intro hid
    have hcond : ¬(s ≠ "" ∧ f.id = some s) := fun hc => hid hc.2
    simp only [resolveStyle, if_neg hcond]

/-- Witness for `resolveStyle_selection_override`: the selected parcel
`P42` is highlighted; a parcel with identifier `X` keeps the plain
style under the same selection. -/
theorem resolveStyle_selection_override_witness :
    (resolveStyle [] (some "P42") ⟨some (some "B"), false, some "P42"⟩).fillColor =
        highlight_color ∧
    resolveStyle [] (some "P42") ⟨some (some "B"), false, some "X"⟩ =
      style_func [] ⟨some (some "B"), false, some "X"⟩ :=
  ⟨((resolveStyle_selection_override [] "P42" ⟨some (some "B"), false, some "P42"⟩
      (by decide)).1 rfl).1,
   (resolveStyle_selection_override [] "P42" ⟨some (some "B"), false, some "X"⟩
      (by decide)).2 (by decide)⟩

/-- C3: from a selection state other than `x`, activating `x` reports a
change and stores `x`; activating `x` again reports no change and the
selection stays `x` (spec-modelled Sync Controller). -/
theorem onMapFeatureActivated_idempotent (x : String) (s : Option String)
    (h : s ≠ some x) :
    (onMapFeatureActivated (some x) s).1 = true ∧
    (onMapFeatureActivated (some x) (onMapFeatureActivated (some x) s).2).1 = false ∧
    (onMapFeatureActivated (some x) (onMapFeatureActivated (some x) s).2).2 = some x := by
  simp [onMapFeatureActivated, h]

/-- Witness for `onMapFeatureActivated_idempotent`: activate `P42`
twice starting from the empty selection. -/
theorem onMapFeatureActivated_idempotent_witness :
    (onMapFeatureActivated (some "P42") none).1 = true ∧
    (onMapFeatureActivated (some "P42") (onMapFeatureActivated (some "P42") none).2).1 = false ∧
    (onMapFeatureActivated (some "P42") (onMapFeatureActivated (some "P42") none).2).2 =
      some "P42" :=
  onMapFeatureActivated_idempotent "P42" none (by decide)

/-- C4: a feature whose category value is null, or whose category is
absent from the Category Color Table, resolves to the default fill
`#808080`; `style_func` is a total Lean function, so style resolution
never raises. -/
theorem style_func_fallback (table : List (String × String)) (f : Feature) :
    (f.pkg = some none → (style_func table f).fillColor = "#808080") ∧
    (∀ s : String, f.pkg = some (some s) → table.lookup s = none →
      (style_func table f).fillColor = "#808080") := by
  constructor
  · intro h
    simp [style_func, dictGetStr, h]
  · intro s h hl
    simp [style_func, dictGetStr, h, hl]

/-- Witness for `style_func_fallback`: a null category and a category
missing from the table both fall back to `#808080`. -/
theorem style_func_fallback_witness :
    (style_func [("A", "#111")] ⟨some none, false, none⟩).fillColor = "#808080" ∧
    (style_func [("A", "#111")] ⟨some (some "Z"), false, none⟩).fillColor = "#808080" :=
  ⟨(style_func_fallback [("A", "#111")] ⟨some none, false, none⟩).1 rfl,
   (style_func_fallback [("A", "#111")] ⟨some (some "Z"), false, none⟩).2 "Z" rfl (by decide)⟩

/-- C5 (amended): a parcel load failure stops the app before any map;
a point load failure is swallowed by its loader and then crashes map
creation; but package and ranch load failures are swallowed and their
`None` results never read, so the map still renders from parcels and
points alone — a partial subset of the four datasets. -/
theorem appStartup_behavior {ρ π κ τ : Type}
    (pr : LoadResult ρ) (po : LoadResult π) (pk : LoadResult κ) (ra : LoadResult τ) :
    (∀ m, pr = .err m → appStartup pr po pk ra = .stopped) ∧
    (∀ p m, pr = .ok p → po = .err m → appStartup pr po pk ra = .crashed) ∧
    (∀ p q, pr = .ok p → po = .ok q → appStartup pr po pk ra = .rendered p q) := by
  refine ⟨?_, ?_, ?_⟩
  · intro m hm
    subst hm
    rfl
  · intro p m hp hm
    subst hp
    subst hm
    rfl
  · intro p q hp hq
    subst hp
    subst hq
    rfl

/-- Witness for `appStartup_behavior`: with parcels and points loaded
and the package load failed, the map is rendered anyway. -/
theorem appStartup_behavior_witness :
    appStartup (LoadResult.ok (1 : ℕ)) (LoadResult.ok (2 : ℕ))
      (LoadResult.err "package load failed" : LoadResult ℕ)
      (LoadResult.ok (3 : ℕ)) =
      StartupOutcome.rendered 1 2 :=
  (appStartup_behavior (LoadResult.ok 1) (LoadResult.ok 2)
    (LoadResult.err "package load failed" : LoadResult ℕ)
    (LoadResult.ok 3)).2.2 1 2 rfl rfl

/-- Counterexample to C5 as stated: the package dataset load fails,
yet the session still renders the map from the other datasets — a
subset of the datasets is rendered in place of the full set. -/
theorem appStartup_partial_counterexample :
    appStartup (LoadResult.ok (0 : ℕ)) (LoadResult.ok (0 : ℕ))
      (LoadResult.err "failed to load packages" : LoadResult ℕ)
      (LoadResult.ok (0 : ℕ)) =
      StartupOutcome.rendered 0 0 :=
  rfl

/-- C7: the style of a feature depends only on its categorical
attribute and the table, never on the `License` flag that routes it
into the licensed or unlicensed layer groups: both groups style with
the same `style_func` (see `layerStyles`). -/
theorem style_func_license_independent (table : List (String × String))
    (f1 f2 : Feature) (h : f1.pkg = f2.pkg) :
    style_func table f1 = style_func table f2 := by
  simp only [style_func, h]

/-- Witness for `style_func_license_independent`: a licensed and an
unlicensed feature of package `B` get the same style. -/
theorem style_func_license_independent_witness :
    style_func (package_color_map [some "B", none]) ⟨some (some "B"), true, some "x"⟩ =
      style_func (package_color_map [some "B", none]) ⟨some (some "B"), false, none⟩ :=
  style_func_license_independent (package_color_map [some "B", none])
    ⟨some (some "B"), true, some "x"⟩ ⟨some (some "B"), false, none⟩ rfl

/-- C9: the marker background depends only on the lower-cased `Name`:
`#325F82` when it contains `lake` but not `house`, else `#8C985F` when
it contains `house` or `estate`, else `#F5D798`. -/
theorem pointBg_spec :
    (∀ n1 n2 : List Char, n1.map Char.toLower = n2.map Char.toLower →
      pointBg n1 = pointBg n2) ∧
    (∀ n : List Char,
      (isSub lakePat (n.map Char.toLower) = true →
        isSub housePat (n.map Char.toLower) = false → pointBg n = "#325F82") ∧
      ((isSub housePat (n.map Char.toLower) = true ∨
          isSub estatePat (n.map Char.toLower) = true) →
        (isSub lakePat (n.map Char.toLower) = false ∨
          isSub housePat (n.map Char.toLower) = true) →
        pointBg n = "#8C985F") ∧
      (isSub lakePat (n.map Char.toLower) = false →
        isSub housePat (n.map Char.toLower) = false →
        isSub estatePat (n.map Char.toLower) = false → pointBg n = "#F5D798")) := by
  constructor
  · intro n1 n2 h
    simp only [pointBg, h]
  · intro n
    refine ⟨?_, ?_, ?_⟩
    · intro h1 h2
      simp [pointBg, h1, h2]
    · intro h1 h2
      rcases h1 with h1 | h1
      · rcases h2 with h2 | h2 <;> simp [pointBg, h1, h2]
      · rcases h2 with h2 | h2 <;> simp [pointBg, h1, h2]
    · intro h1 h2 h3
      simp [pointBg, h1, h2, h3]

/-- Witness for `pointBg_spec`: case-insensitivity and the three color
buckets on concrete names. -/
theorem pointBg_spec_witness :
    pointBg ['L', 'a', 'k', 'e'] = pointBg ['l', 'A', 'K', 'E'] ∧
    pointBg ['L', 'a', 'k', 'e'] = "#325F82" ∧
    pointBg ['E', 's', 't', 'a', 't', 'e'] = "#8C985F" ∧
    pointBg ['B', 'a', 'r', 'n'] = "#F5D798" :=
  ⟨pointBg_spec.1 ['L', 'a', 'k', 'e'] ['l', 'A', 'K', 'E'] (by decide),
   (pointBg_spec.2 ['L', 'a', 'k', 'e']).1 (by decide) (by decide),
   (pointBg_spec.2 ['E', 's', 't', 'a', 't', 'e']).2.1 (Or.inr (by decide)) (Or.inl (by decide)),
   (pointBg_spec.2 ['B', 'a', 'r', 'n']).2.2 (by decide) (by decide) (by decide)⟩

/-- C10: price normalization never raises: each cell, after `$` and `,`
are stripped, yields either a number rounded to two decimals or NaN
(`none`); the column pass keeps exactly the dataframe's columns and
leaves non-price columns raw, so price columns absent from the
dataframe are skipped. -/
theorem price_normalization_safe :
    (∀ cell : List Char,
      normalizePriceCell cell = none ∨
      ∃ q : ℚ, to_numeric_coerce (stripDollarComma cell) = some q ∧
        normalizePriceCell cell = some (round2 q)) ∧
    (∀ df : List (String × List (List Char)),
      (normalize_price_columns df).map Prod.fst = df.map Prod.fst) ∧
    (∀ (df : List (String × List (List Char))) (name : String) (cells : List (List Char)),
      (name, cells) ∈ df → price_cols.contains name = false →
      (name, ColData.raw cells) ∈ normalize_price_columns df) := by
  refine ⟨?_, ?_, ?_⟩
  · intro cell
    cases h : to_numeric_coerce (stripDollarComma cell) with
    | none =>
      left
      simp [normalizePriceCell, h]
    | some q =>
      right
      refine ⟨q, rfl, ?_⟩
      simp [normalizePriceCell, h]
  · intro df
    rw [normalize_price_columns, List.map_map]
    apply List.map_congr_left
    intro col _
    by_cases h : col.1 ∈ price_cols <;> simp [h]
  · intro df name cells hmem hnc
    have hnm : name ∉ price_cols := by
      intro hm
      have hc : price_cols.contains name = true := List.elem_iff.mpr hm
      rw [hnc] at hc
      exact Bool.noConfusion hc
    have hfun : (fun col : String × List (List Char) =>
        if price_cols.contains col.1 then (col.1, ColData.nums (col.2.map normalizePriceCell))
        else (col.1, ColData.raw col.2)) (name, cells) = (name, ColData.raw cells) := by
      simp [hnm]
    rw [normalize_price_columns]
    exact hfun ▸ List.mem_map_of_mem _ hmem

/-- Witness for `price_normalization_safe`: the dataframe's only
column is not a price column and survives untouched. -/
theorem price_normalization_safe_witness :
    ("Name", ColData.raw [['a']]) ∈
      normalize_price_columns [("Name", [['a']])] :=
  price_normalization_safe.2.2 [("Name", [['a']])] "Name" [['a']]
    (List.mem_singleton.mpr rfl) (by decide)

theorem isPre_refl : ∀ p : List Char, isPre p p = true := by
  intro p
  induction p with
  | nil => rfl
  | cons a p ih => simp [isPre, ih]

theorem isSuf_refl : ∀ p : List Char, isSuf p p = true := by
  intro p
  cases p with
  | nil => rfl
  | cons a p => simp [isSuf]

theorem isSuf_cons_mono {p t : List Char} (c : Char) (h : isSuf p t = true) :
    isSuf p (c :: t) = true := by
  simp [isSuf, h]

theorem isSub_cons_mono {p t : List Char} (c : Char) (h : isSub p t = true) :
    isSub p (c :: t) = true := by
  simp [isSub, h]

theorem isSub_of_isPre {p s : List Char} (h : isPre p s = true) : isSub p s = true := by
  cases s with
  | nil =>
    cases p with
    | nil => rfl
    | cons a p => exact absurd h (by simp [isPre])
  | cons b s => simp [isSub, h]

theorem isPre_length_le : ∀ {u s : List Char}, isPre u s = true → u.length ≤ s.length := by
  intro u
  induction u with
  | nil => intro s _; simp
  | cons a u ih =>
    intro s h
    cases s with
    | nil => exact absurd h (by simp [isPre])
    | cons b s =>
      simp only [isPre, Bool.and_eq_true] at h
      simpa using ih h.2

theorem isPre_nil_right {u : List Char} (h : isPre u [] = true) : u = [] := by
  cases u with
  | nil => rfl
  | cons a u => exact absurd h (by simp [isPre])

theorem isPre_ne_nil_nil {u : List Char} (h : u ≠ []) : isPre u [] = false := by
  cases u with
  | nil => exact absurd rfl h
  | cons a u => rfl

theorem isPre_append_elim :
    ∀ (a : List Char) (u b : List Char), isPre u (a ++ b) = true →
      isPre u a = true ∨ ∃ v, u = a ++ v ∧ isPre v b = true := by
  intro a
  induction a with
  | nil =>
    intro u b h
    exact Or.inr ⟨u, rfl, h⟩
  | cons x a ih =>
    intro u b h
    cases u with
    | nil => exact Or.inl rfl
    | cons y u =>
      simp only [List.cons_append, isPre, Bool.and_eq_true, beq_iff_eq] at h
      rcases ih u b h.2 with h1 | ⟨v, hv, hp⟩
      · exact Or.inl (by simp [isPre, h.1, h1])
      · exact Or.inr ⟨v, by simp [h.1, hv], hp⟩

theorem isSub_append_elim :
    ∀ (a : List Char) (p b : List Char), isSub p (a ++ b) = true →
      isSub p a = true ∨ isSub p b = true ∨
      ∃ p1 p2, p = p1 ++ p2 ∧ p1 ≠ [] ∧ p2 ≠ [] ∧
        isSuf p1 a = true ∧ isPre p2 b = true := by
  intro a
  induction a with
  | nil =>
    intro p b h
    exact Or.inr (Or.inl h)
  | cons x a ih =>
    intro p b h
    rw [List.cons_append] at h
    rw [isSub, Bool.or_eq_true] at h
    rcases h with h | h
    · rcases isPre_append_elim (x :: a) p b h with h1 | ⟨v, hv, hp⟩
      · exact Or.inl (isSub_of_isPre h1)
      · cases v with
        | nil =>
          rw [List.append_nil] at hv
          exact Or.inl (by rw [hv]; exact isSub_of_isPre (isPre_refl (x :: a)))
        | cons z v =>
          exact Or.inr (Or.inr ⟨x :: a, z :: v, hv, by simp, by simp,
            isSuf_refl (x :: a), hp⟩)
    · rcases ih p b h with h1 | h1 | ⟨p1, p2, hsplit, h1ne, h2ne, hsuf, hpre⟩
      · exact Or.inl (isSub_cons_mono x h1)
      · exact Or.inr (Or.inl h1)
      · exact Or.inr (Or.inr ⟨p1, p2, hsplit, h1ne, h2ne, isSuf_cons_mono x hsuf, hpre⟩)

theorem isSub_drop : ∀ (m : ℕ) (p t : List Char), isSub p (t.drop m) = true →
    isSub p t = true := by
  intro m
  induction m with
  | zero => intro p t h; simpa using h
  | succ m ih =>
    intro p t h
    cases t with
    | nil => simpa using h
    | cons c t => exact isSub_cons_mono c (ih p t h)

theorem isSuf_take_of_append {p p1 p2 a : List Char} (hsplit : p = p1 ++ p2)
    (hsuf : isSuf p1 a = true) : isSuf (p.take p1.length) a = true := by
  have : p.take p1.length = p1 := by
    rw [hsplit]
    exact List.take_left p1 p2
  rw [this]
  exact hsuf

theorem filesPat_length : filesPat.length = 11 := rfl

/-- The tail of `filesPat` after its first character `s`. -/
def filesTail : List Char := ['r', 'c', '=', '"', 'f', 'i', 'l', 'e', 's', '/']

theorem filesPat_eq : filesPat = 's' :: filesTail := rfl

theorem filesTail_eq : filesTail = filesPat.drop 1 := rfl

theorem noSub_filesPat_filesRepl : isSub filesPat filesRepl = false := by decide

theorem noSuf_take_filesRepl :
    ∀ k, k < 11 → 0 < k → isSuf (filesPat.take k) filesRepl = false := by decide

theorem noPre_drop_filesRepl :
    ∀ k, k < 11 → 0 < k → isPre (filesPat.drop k) filesRepl = false := by decide

theorem noSub_filesPat_imgRepl : isSub filesPat imgRepl = false := by decide

theorem noSuf_take_imgRepl :
    ∀ k, k < 11 → 0 < k → isSuf (filesPat.take k) imgRepl = false := by decide

theorem noPre_drop_imgRepl :
    ∀ k, k < 11 → 0 < k → isPre (filesPat.drop k) imgRepl = false := by decide

/-- Replacing occurrences of `q` by `r` in `t` cannot create a proper
suffix of `filesPat` as a leading segment, provided `r` neither starts
with such a suffix nor is shorter than `filesPat`. -/
theorem suffix_pres (q r : List Char)
    (hP : ∀ k, k < filesPat.length → 0 < k → isPre (filesPat.drop k) r = false)
    (hlen : filesPat.length ≤ r.length) :
    ∀ (n : ℕ) (t : List Char), t.length ≤ n → ∀ k, 0 < k → k < filesPat.length →
      isPre (filesPat.drop k) t = false →
      isPre (filesPat.drop k) (replaceAllGo q r n t) = false := by
  intro n
  induction n with
  | zero =>
    intro t ht k hk0 hk _
    have htn : t = [] := List.length_eq_zero.mp (Nat.le_zero.mp ht)
    subst htn
    apply isPre_ne_nil_nil
    intro hnil
    rw [List.drop_eq_nil_iff] at hnil
    omega
  | succ n ih =>
    intro t ht k hk0 hk hf
    cases t with
    | nil =>
      apply isPre_ne_nil_nil
      intro hnil
      rw [List.drop_eq_nil_iff] at hnil
      omega
    | cons c t =>
      simp only [replaceAllGo]
      split
      · rw [Bool.eq_false_iff]
        intro htrue
        rcases isPre_append_elim r (filesPat.drop k) _ htrue with h1 | ⟨v, hv, _⟩
        · rw [hP k hk hk0] at h1
          exact Bool.noConfusion h1
        · have hlv := congrArg List.length hv
          rw [List.length_drop, List.length_append] at hlv
          omega
      · have hcons := List.drop_eq_getElem_cons hk
        rw [hcons] at hf ⊢
        simp only [isPre] at hf ⊢
        by_cases hgc : (filesPat[k] == c) = true
        · rw [hgc, Bool.true_and] at hf ⊢
          by_cases hk1 : k + 1 < filesPat.length
          · exact ih t (by simpa using ht) (k + 1) (by omega) hk1 hf
          · exfalso
            have hnil : filesPat.drop (k + 1) = [] := by
              rw [List.drop_eq_nil_iff]
              omega
            rw [hnil] at hf
            simp [isPre] at hf
        · have hgc' : (filesPat[k] == c) = false := Bool.eq_false_iff.mpr hgc
          rw [hgc', Bool.false_and]

/-- After one pass of the `src="files/` rewrite, the pattern no longer
occurs anywhere in the string. -/
theorem noSub_after_filesRewrite :
    ∀ (n : ℕ) (s : List Char), s.length ≤ n →
      isSub filesPat (replaceAllGo filesPat filesRepl n s) = false := by
  intro n
  induction n with
  | zero =>
    intro s hs
    have hsn : s = [] := List.length_eq_zero.mp (Nat.le_zero.mp hs)
    subst hsn
    decide
  | succ n ih =>
    intro s hs
    cases s with
    | nil =>
      show isSub filesPat [] = false
      decide
    | cons c t =>
      have htn : t.length ≤ n := by
        simpa using hs
      simp only [replaceAllGo]
      split
      · rename_i hcond
        rw [Bool.eq_false_iff]
        intro htrue
        have hdlen : ((c :: t).drop filesPat.length).length ≤ n := by
          rw [List.length_drop]
          simp only [List.length_cons]
          rw [filesPat_length]
          omega
        rcases isSub_append_elim filesRepl filesPat _ htrue with
          h1 | h1 | ⟨p1, p2, hsplit, h1ne, h2ne, hsuf, _⟩
        · rw [noSub_filesPat_filesRepl] at h1
          exact Bool.noConfusion h1
        · rw [ih _ hdlen] at h1
          exact Bool.noConfusion h1
        · have hk := isSuf_take_of_append hsplit hsuf
          have hlenp := congrArg List.length hsplit
          rw [List.length_append] at hlenp
          have h2pos : 0 < p2.length := List.length_pos.mpr h2ne
          have h1pos : 0 < p1.length := List.length_pos.mpr h1ne
          have hklt : p1.length < 11 := by
            rw [filesPat_length] at hlenp
            omega
          rw [noSuf_take_filesRepl p1.length hklt h1pos] at hk
          exact Bool.noConfusion hk
      · rename_i hcond
        have hnp : isPre filesPat (c :: t) = false := by
          rw [Bool.eq_false_iff]
          intro hp
          exact hcond ⟨by decide, hp⟩
        have hIH := ih t htn
        simp only [isSub, Bool.or_eq_false_iff]
        refine ⟨?_, hIH⟩
        rw [filesPat_eq] at hnp ⊢
        simp only [isPre] at hnp ⊢
        by_cases hsc : ('s' == c) = true
        · rw [hsc, Bool.true_and] at hnp ⊢
          rw [filesTail_eq] at hnp ⊢
          exact suffix_pres filesPat filesRepl
            (fun k hk hk0 => noPre_drop_filesRepl k hk hk0) (by decide)
            n t htn 1 (by decide) (by decide) hnp
        · rw [Bool.eq_false_iff.mpr hsc, Bool.false_and]

/-- The `<img ` rewrite cannot introduce an occurrence of
`src="files/` into a string that has none. -/
theorem noSub_after_imgRewrite :
    ∀ (n : ℕ) (s : List Char), s.length ≤ n → isSub filesPat s = false →
      isSub filesPat (replaceAllGo imgPat imgRepl n s) = false := by
  intro n
  induction n with
  | zero =>
    intro s hs hsub
    have hsn : s = [] := List.length_eq_zero.mp (Nat.le_zero.mp hs)
    subst hsn
    exact hsub
  | succ n ih =>
    intro s hs hsub
    cases s with
    | nil => exact hsub
    | cons c t =>
      have htn : t.length ≤ n := by
        simpa using hs
      simp only [replaceAllGo]
      split
      · rename_i hcond
        rw [Bool.eq_false_iff]
        intro htrue
        have hdlen : ((c :: t).drop imgPat.length).length ≤ n := by
          rw [List.length_drop]
          simp only [List.length_cons]
          have himg : imgPat.length = 5 := rfl
          rw [himg]
          omega
        have hsubdrop : isSub filesPat ((c :: t).drop imgPat.length) = false := by
          rw [Bool.eq_false_iff]
          intro hx
          have hlift := isSub_drop imgPat.length filesPat (c :: t) hx
          rw [hsub] at hlift
          exact Bool.noConfusion hlift
        have hIH := ih _ hdlen hsubdrop
        rcases isSub_append_elim imgRepl filesPat _ htrue with
          h1 | h1 | ⟨p1, p2, hsplit, h1ne, h2ne, hsuf, _⟩
        · rw [noSub_filesPat_imgRepl] at h1
          exact Bool.noConfusion h1
        · rw [hIH] at h1
          exact Bool.noConfusion h1
        · have hk := isSuf_take_of_append hsplit hsuf
          have hlenp := congrArg List.length hsplit
          rw [List.length_append] at hlenp
          have h2pos : 0 < p2.length := List.length_pos.mpr h2ne
          have h1pos : 0 < p1.length := List.length_pos.mpr h1ne
          have hklt : p1.length < 11 := by
            rw [filesPat_length] at hlenp
            omega
          rw [noSuf_take_imgRepl p1.length hklt h1pos] at hk
          exact Bool.noConfusion hk
      · rename_i hcond
        have hparts : isPre filesPat (c :: t) = false ∧ isSub filesPat t = false := by
          rw [isSub, Bool.or_eq_false_iff] at hsub
          exact hsub
        have hIH := ih t htn hparts.2
        simp only [isSub, Bool.or_eq_false_iff]
        refine ⟨?_, hIH⟩
        have hnp := hparts.1
        rw [filesPat_eq] at hnp ⊢
        simp only [isPre] at hnp ⊢
        by_cases hsc : ('s' == c) = true
        · rw [hsc, Bool.true_and] at hnp ⊢
          rw [filesTail_eq] at hnp ⊢
          exact suffix_pres imgPat imgRepl
            (fun k hk hk0 => noPre_drop_imgRepl k hk hk0) (by decide)
            n t htn 1 (by decide) (by decide) hnp
        · rw [Bool.eq_false_iff.mpr hsc, Bool.false_and]

/-- The composite rewrite of `fix_image_paths_to_static` leaves no
occurrence of the `src="files/` marker. -/
theorem noSub_after_fix (s : List Char) :
    isSub filesPat (replaceAll imgPat imgRepl (replaceAll filesPat filesRepl s)) = false :=
  noSub_after_imgRewrite _ _ le_rfl (noSub_after_filesRewrite _ _ le_rfl)

/-- C8: `fix_image_paths_to_static` is total and idempotent — a second
application returns its argument unchanged — and it is the identity on
non-string values and on strings without the `src="files/` marker. -/
theorem fix_image_paths_idempotent {α : Type} (v : PyVal α) :
    fix_image_paths_to_static (fix_image_paths_to_static v) = fix_image_paths_to_static v ∧
    (∀ a : α, v = .other a → fix_image_paths_to_static v = v) ∧
    (∀ s : List Char, v = .str s → isSub filesPat s = false →
      fix_image_paths_to_static v = v) := by
  refine ⟨?_, ?_, ?_⟩
  · cases v with
    | other a => rfl
    | str s =>
      by_cases h : isSub filesPat s = true
      · have h1 : fix_image_paths_to_static (PyVal.str s : PyVal α) =
            .str (replaceAll imgPat imgRepl (replaceAll filesPat filesRepl s)) := by
          simp only [fix_image_paths_to_static, if_pos h]
        rw [h1]
        have h2 := noSub_after_fix s
        simp only [fix_image_paths_to_static]
        rw [if_neg (by simp [h2])]
      · have hf : isSub filesPat s = false := Bool.eq_false_iff.mpr h
        have h1 : fix_image_paths_to_static (PyVal.str s : PyVal α) = .str s := by
          simp only [fix_image_paths_to_static]
          rw [if_neg (by simp [hf])]
        rw [h1, h1]
  · intro a hv
    subst hv
    rfl
  · intro s hv hf
    subst hv
    simp only [fix_image_paths_to_static]
    rw [if_neg (by simp [hf])]

/-- Witness for `fix_image_paths_idempotent`: idempotence on a string
that is rewritten (`<img src="files/a">`), and identity on a
non-string and on a plain string. -/
theorem fix_image_paths_idempotent_witness :
    fix_image_paths_to_static (fix_image_paths_to_static
        (PyVal.str ['<', 'i', 'm', 'g', ' ', 's', 'r', 'c', '=', '"', 'f',
          'i', 'l', 'e', 's', '/', 'a', '"', '>'] : PyVal ℕ)) =
      fix_image_paths_to_static
        (PyVal.str ['<', 'i', 'm', 'g', ' ', 's', 'r', 'c', '=', '"', 'f',
          'i', 'l', 'e', 's', '/', 'a', '"', '>'] : PyVal ℕ) ∧
    fix_image_paths_to_static (PyVal.other 7 : PyVal ℕ) = PyVal.other 7 ∧
    fix_image_paths_to_static (PyVal.str ['a', 'b'] : PyVal ℕ) = PyVal.str ['a', 'b'] :=
  ⟨(fix_image_paths_idempotent _).1,
   (fix_image_paths_idempotent _).2.1 7 rfl,
   (fix_image_paths_idempotent _).2.2 ['a', 'b'] rfl (by decide)⟩
